import Mathlib

/-!
Verification of the claude-agent-squad command-dispatch engine.

Shallow embedding of the Python sources:
  - python_agent_squad/jump_codes.py            (JumpCodeRegistry)
  - python_agent_squad/advanced_jump_codes.py   (SequentialJumpCodes, JumpCodeMacros)
  - python_agent_squad/enhanced_jump_codes.py   (EnhancedJumpCodeProcessor)
  - python_agent_squad/agent_squad_jump_integration.py (_parallel_handler)

Modelling conventions:
  - Python strings are `List Char` (`Str`); `str` injects Lean string literals.
  - Python dicts are association lists with first-match lookup; assignment
    (`d[k] = v`) replaces the first binding in place or appends (`setA`),
    `del d[k]` removes the first binding (`delA`) — faithful for dicts,
    whose keys are unique.
  - A raised Python exception is `Except.error` carrying `str(e)`; a function
    that cannot raise is total.
  - Wall-clock data (timestamps, durations) is omitted: it is ambient
    input that no claim depends on.  `success_rate`, computed in floating
    point by the source, is modelled as the (successes, total) pair.
  - Regular expressions used by the source are resolved to their
    deterministic meaning under Python `re` semantics: `\w = [A-Za-z0-9_]`
    (ASCII), greedy `\w+` is the longest leading word-run (backtracking
    cannot help, see `parseJumpCode`), `.` matches any character except a
    newline, and `$` matches at end of input or just before one final
    newline.  The boundary cases were checked against CPython `re`.
-/

abbrev Str := List Char

def str (s : String) : Str := s.data

/-- Python `\w` character class: `[A-Za-z0-9_]`. -/
def wordChar (c : Char) : Bool := c.isAlphanum || c == '_'

/-- Python `str.isdigit` on ASCII input: nonempty and all digits. -/
def pyIsdigit (l : Str) : Bool := !l.isEmpty && l.all Char.isDigit

/-- Python `str.lower` on ASCII input. -/
def lowerStr (l : Str) : Str := l.map Char.toLower

/-- Python whitespace stripped by `str.strip`. -/
def pySpace (c : Char) : Bool :=
  c == ' ' || c == '\t' || c == '\n' || c == '\x0d' || c == '\x0b' || c == '\x0c'

/-- Python `str.strip`. -/
def pstrip (l : Str) : Str :=
  ((l.dropWhile pySpace).reverse.dropWhile pySpace).reverse

/-- Python `str.split(sep)` (never returns an empty list). -/
def splitOn (sep : Char) : Str → List Str
  | [] => [[]]
  | c :: t =>
    if c == sep then [] :: splitOn sep t
    else
      match splitOn sep t with
      | h :: r => (c :: h) :: r
      | [] => [[c]]

/-- Bool test that `p` is a prefix of `s` (Python slicing / `re` literal match). -/
def leadsWith : Str → Str → Bool
  | [], _ => true
  | _ :: _, [] => false
  | a :: p, b :: s => a == b && leadsWith p s

/-- Python substring containment `needle in hay`. -/
def containsStr (n : Str) : Str → Bool
  | [] => n.isEmpty
  | c :: t => leadsWith n (c :: t) || containsStr n t

/-- Python `int(s)` for an all-digit string. -/
def natOfDigits (l : Str) : Nat :=
  l.foldl (fun n c => 10 * n + (c.toNat - ('0').toNat)) 0

/-- Decimal rendering of a number (Python f-string interpolation). -/
def natToStr (n : Nat) : Str := (Nat.repr n).data

/-- Values flowing through the engine: parsed parameters, handler results,
context entries.  Python floats are kept as their literal text, since no
claim computes with them. -/
inductive Val : Type where
  | vbool (b : Bool)
  | vint (n : Nat)
  | vfloat (litChars : Str)
  | vstr (s : Str)
  | vdict (entries : List (Str × Val))
  | vlist (items : List Val)

/-- Association-list lookup: first binding wins (Python dict access). -/
def lookupA {α : Type} : List (Str × α) → Str → Option α
  | [], _ => none
  | p :: t, k => if p.1 = k then some p.2 else lookupA t k

/-- Python dict assignment `d[k] = v`: replace the first binding in place,
else append. -/
def setA {α : Type} : List (Str × α) → Str → α → List (Str × α)
  | [], k, v => [(k, v)]
  | p :: t, k, v => if p.1 = k then (k, v) :: t else p :: setA t k v

/-- Python `del d[k]`: remove the first binding. -/
def delA {α : Type} : List (Str × α) → Str → List (Str × α)
  | [], _ => []
  | p :: t, k => if p.1 = k then t else p :: delA t k

abbrev Ctx := List (Str × Val)

/-! ### Parser — `JumpCodeRegistry._parse_jump_code` (jump_codes.py 131-170) -/

/-- Remove the `@` sigil if present (jump_codes.py 134-135: the sigil is
optional for this parser). -/
def stripSigil : Str → Str
  | '@' :: t => t
  | s => s

/-- Value coercion (jump_codes.py 157-165): `true`/`false` case-insensitively,
then `isdigit` → int, then `replace(".", "", 1).isdigit()` → float, else
string.  `List.erase` removes the first occurrence, exactly like
`str.replace` with count 1. -/
def coerceValue (v : Str) : Val :=
  let lv := lowerStr v
  if lv = str "true" ∨ lv = str "false" then Val.vbool (lv = str "true")
  else if pyIsdigit v then Val.vint (natOfDigits v)
  else if pyIsdigit (v.erase '.') then Val.vfloat v
  else Val.vstr v

/-- One comma-separated token (jump_codes.py 150-168): strip, split at the
first `=` into key/value and coerce, or treat a bare token as a flag set
to `true`. -/
def parseParamToken (tok : Str) : Str × Val :=
  let p := pstrip tok
  if ('=') ∈ p then
    (pstrip (p.takeWhile (fun c => c ≠ '=')),
     coerceValue (pstrip ((p.dropWhile (fun c => c ≠ '=')).tail)))
  else (p, Val.vbool true)

/-- The parameter dict built from a nonempty parameter segment. -/
def parseParams (ps : Str) : List (Str × Val) :=
  (splitOn ',' ps).foldl (fun m tok =>
    let kv := parseParamToken tok
    setA m kv.1 kv.2) []

structure ParsedCode where
  code : Str
  parameters : List (Str × Val)

/-- `JumpCodeRegistry._parse_jump_code`: strip the optional sigil, then
match `^(\w+)(?::(.+))?$` under Python `re` semantics.  Resolved
deterministically: the name is the longest leading word-run — a shorter
name would be followed by a word character, which is neither `:` nor a
position where `$` can match, so backtracking cannot help.  After the
name, `$` matches at end of input or just before one final newline (so
`ab` and a trailing-newline `ab` parse, with no parameters).  In the
parameter branch, greedy `.+` matches a nonempty run of non-newline
characters: the captured parameter text is the run after `:`, which must
be nonempty and be followed by nothing or by exactly one final newline. -/
def parseJumpCode (s : Str) : Except Str ParsedCode :=
  let s2 := stripSigil s
  let name := s2.takeWhile wordChar
  if name.isEmpty then .error (str "Invalid jump code format: " ++ s2)
  else
    match s2.drop name.length with
    | [] => .ok ⟨name, []⟩
    | ['\n'] => .ok ⟨name, []⟩
    | ':' :: ps =>
      let run := ps.takeWhile (fun c => c ≠ '\n')
      if run.isEmpty then .error (str "Invalid jump code format: " ++ s2)
      else if (ps.drop run.length).isEmpty ∨ ps.drop run.length = ['\n'] then
        .ok ⟨name, parseParams run⟩
      else .error (str "Invalid jump code format: " ++ s2)
    | _ => .error (str "Invalid jump code format: " ++ s2)

/-- The acceptance condition of `_parse_jump_code`'s regex
`^(\w+)(?::(.+))?$`, read off `parseJumpCode`'s resolution of it.  This is
the parser's own acceptance predicate, not the spec grammar — see
`specGrammarOk` for the latter. -/
def regexAccepts (t : Str) : Bool :=
  let name := t.takeWhile wordChar
  if name.isEmpty then false
  else
    match t.drop name.length with
    | [] => true
    | ['\n'] => true
    | ':' :: ps =>
      let run := ps.takeWhile (fun c => c ≠ '\n')
      if run.isEmpty then false
      else if (ps.drop run.length).isEmpty ∨ ps.drop run.length = ['\n'] then true
      else false
    | _ => false

/-- Coercion as worded by the spec (§4.1): case-insensitive `true`/`false` →
boolean; all-digit → integer; digits with exactly one decimal point →
float; else string.  Used only to compare against `coerceValue`. -/
def specCoerceValue (v : Str) : Val :=
  if lowerStr v = str "true" then Val.vbool true
  else if lowerStr v = str "false" then Val.vbool false
  else if pyIsdigit v then Val.vint (natOfDigits v)
  else if v.count '.' = 1 ∧ (v.filter (fun c => c ≠ '.')).all Char.isDigit ∧
          (v.filter (fun c => c ≠ '.')) ≠ [] then Val.vfloat v
  else Val.vstr v

def exOk {ε α : Type} : Except ε α → Bool
  | .ok _ => true
  | .error _ => false

/-- The acceptance condition of the enhanced parser, for comparison against
the spec grammar: the sigil is mandatory and the name must be nonempty, but
nothing beyond the name is constrained (the regex is unanchored at the
end). -/
def enhAccepts (s : Str) : Bool :=
  match s with
  | '@' :: rest => !(rest.takeWhile wordChar).isEmpty
  | _ => false

/-! ### Registry — `JumpCodeRegistry` (jump_codes.py 10-129)

A handler receives the call context and the merged keyword parameters and
either returns a value or raises (modelled as `Except.error` carrying
`str(e)`). -/

structure JumpCode where
  code : Str
  description : Str
  handler : Ctx → List (Str × Val) → Except Str Val
  parameters : List (Str × Val)
  aliases : List Str
  contextRequired : List Str

structure Registry where
  codes : List (Str × JumpCode)
  aliases : List (Str × Str)

/-- The identifier check `^[a-zA-Z_]\w*$` shared by `register` and
`define_macro`. -/
def nameOk : Str → Bool
  | [] => false
  | c :: t => (c.isAlpha || c == '_') && t.all wordChar

/-- One `param` token of the spec's paramlist (§4.1/§6): `key "=" value`
or a bare `key`, where the key — the text before the first `=` — is a
nonempty token.  Values are unconstrained by the spec apart from
containing no comma, which holds by construction after splitting on
commas. -/
def specParamOk (tok : Str) : Bool :=
  !(tok.takeWhile (fun c => c ≠ '=')).isEmpty

/-- The spec's command grammar (§4.1/§6) on the sigil-stripped text:
`name [":" paramlist]` with `name = [A-Za-z_]\w*` (the spec's identifier
rule, `nameOk`) and `paramlist` a comma-separated list of `param` tokens.
Since every name character is a word character and `:` is not, a string
lies in the grammar exactly when its longest leading word-run is a valid
name and the remainder is empty or `:` followed by a valid paramlist,
which is how it is decided here. -/
def specGrammarOk (t : Str) : Bool :=
  let name := t.takeWhile wordChar
  nameOk name &&
    (match t.drop name.length with
     | [] => true
     | ':' :: ps => (splitOn ',' ps).all specParamOk
     | _ => false)

/-- `JumpCodeRegistry.register` (jump_codes.py 63-80): validate the name,
insert the descriptor, bind every alias (override warnings are logging
only). -/
def registerCode (r : Registry) (jc : JumpCode) : Except Str Registry :=
  if nameOk jc.code then
    .ok { codes := setA r.codes jc.code jc,
          aliases := jc.aliases.foldl (fun m a => setA m a jc.code) r.aliases }
  else .error (str "Invalid jump code format: " ++ jc.code)

/-- `JumpCodeRegistry.unregister` (jump_codes.py 82-94): if the canonical
name exists, delete every alias listed in its descriptor that is present in
the alias map, then delete the canonical entry; report whether anything was
removed. -/
def unregister (r : Registry) (code : Str) : Registry × Bool :=
  match lookupA r.codes code with
  | some jc =>
    ({ codes := delA r.codes code,
       aliases := jc.aliases.foldl (fun m a => delA m a) r.aliases }, true)
  | none => (r, false)

/-- Errors raised out of `JumpCodeRegistry.execute`; `errMsg` is `str(e)`. -/
inductive ExecErr : Type where
  | parseError (msg : Str)
  | unknownCode (name : Str)
  | missingContext (keys : List Str)
  | handlerError (msg : Str)

def errMsg : ExecErr → Str
  | .parseError m => m
  | .unknownCode n => str "Unknown jump code: " ++ n
  | .missingContext ks => str "Missing required context: " ++ List.intercalate (str ", ") ks
  | .handlerError m => m

/-- `JumpCodeRegistry.execute` (jump_codes.py 96-129): parse, resolve the
alias, look up the canonical code, validate required context, merge defaults
with explicit parameters (explicit wins), dispatch.  The `except` clause at
line 127-129 logs and then re-raises, so every failure — including one
raised by the handler — propagates to the caller as `Except.error`. -/
def registryExecute (r : Registry) (codeString : Str) (ctx : Ctx) : Except ExecErr Val :=
  match parseJumpCode codeString with
  | .error m => .error (.parseError m)
  | .ok pc =>
    let name := match lookupA r.aliases pc.code with
      | some c => c
      | none => pc.code
    match lookupA r.codes name with
    | none => .error (.unknownCode name)
    | some jc =>
      let missing := jc.contextRequired.filter (fun k => (lookupA ctx k).isNone)
      if missing.isEmpty then
        let finalParams := pc.parameters.foldl (fun m p => setA m p.1 p.2) jc.parameters
        match jc.handler ctx finalParams with
        | .ok v => .ok v
        | .error m => .error (.handlerError m)
      else .error (.missingContext missing)

/-! ### Sequential execution — `SequentialJumpCodes` (advanced_jump_codes.py 11-129) -/

/-- One entry of the `results` list built by `execute_sequence`
(advanced_jump_codes.py 38-44 and 56-62); the wall-clock `timestamp` field
is omitted. -/
structure StepRecord where
  code : Str
  success : Bool
  result : Option Val
  error : Option Str
  position : Nat

/-- The Python step record is a dict; this is its dict form, used for the
`previous_results` context snapshot. -/
def recordToVal (r : StepRecord) : Val :=
  Val.vdict
    ([(str "code", Val.vstr r.code), (str "success", Val.vbool r.success)] ++
     (match r.result with | some v => [(str "result", v)] | none => []) ++
     (match r.error with | some e => [(str "error", Val.vstr e)] | none => []) ++
     [(str "position", Val.vint r.position)])

/-- The protected context keys of advanced_jump_codes.py line 49. -/
def protectedKeys : List Str :=
  [str "sequence_id", str "sequence_position", str "previous_results"]

/-- Merging a dict-shaped step result into the shared context
(advanced_jump_codes.py 46-52): every key except the protected ones is
assigned into the context. -/
def mergeStepResult (ctx : Ctx) (entries : List (Str × Val)) : Ctx :=
  entries.foldl (fun c kv => if kv.1 ∈ protectedKeys then c else setA c kv.1 kv.2) ctx

/-- The critical-error substrings of `_should_abort_sequence`
(advanced_jump_codes.py 87-91). -/
def criticalErrors : List Str :=
  [str "Missing required context", str "Unknown jump code", str "Invalid jump code format"]

/-- `SequentialJumpCodes._should_abort_sequence` (advanced_jump_codes.py
84-103): abort when `str(error)` contains any critical substring; the
trailing position check is kept from the source although both of its
branches return `False`. -/
def shouldAbortSequence (msg : Str) (position : Nat) (total : Nat) : Bool :=
  if criticalErrors.any (fun c => containsStr c msg) then true
  else if position = total - 1 then false
  else false

/-- The loop body of `execute_sequence` (advanced_jump_codes.py 29-67):
inject position and a snapshot of prior results, execute, record the
outcome, merge dict results, and on failure consult the abort policy. -/
def executeSequenceAux (r : Registry) (seqLen : Nat) :
    List Str → Nat → Ctx → List StepRecord → List StepRecord
  | [], _, _, acc => acc
  | code :: rest, i, ctx, acc =>
    let ctx1 := setA (setA ctx (str "sequence_position") (Val.vint i))
      (str "previous_results") (Val.vlist (acc.map recordToVal))
    match registryExecute r code ctx1 with
    | .ok v =>
      let acc1 := acc ++ [⟨code, true, some v, none, i⟩]
      let ctx2 := match v with
        | Val.vdict entries => mergeStepResult ctx1 entries
        | _ => ctx1
      executeSequenceAux r seqLen rest (i + 1) ctx2 acc1
    | .error e =>
      let acc1 := acc ++ [⟨code, false, none, some (errMsg e), i⟩]
      if shouldAbortSequence (errMsg e) i seqLen then acc1
      else executeSequenceAux r seqLen rest (i + 1) ctx1 acc1

/-- The sequence record built at advanced_jump_codes.py 70-77; wall-clock
fields are omitted and the floating-point `success_rate` is kept as the
(successes, steps) pair it is computed from. -/
structure SeqRecord where
  sequence : List Str
  results : List StepRecord
  completed : Bool
  successes : Nat
  totalSteps : Nat

/-- `SequentialJumpCodes.execute_sequence` (advanced_jump_codes.py 19-82).
The fresh `sequence_id` (a wall-clock string) is passed in as `seqId`;
`sequence_start` is wall-clock only and is omitted. -/
def executeSequence (r : Registry) (seqId : Str) (sequence : List Str) : SeqRecord :=
  let ctx0 : Ctx := [(str "sequence_id", Val.vstr seqId)]
  let results := executeSequenceAux r sequence.length sequence 0 ctx0 []
  { sequence := sequence
    results := results
    completed := results.length = sequence.length
    successes := (results.filter (fun rec0 => rec0.success)).length
    totalSteps := results.length }

/-- `SequentialJumpCodes.max_memory_size` (advanced_jump_codes.py 17). -/
def maxMemorySize : Nat := 100

/-- `SequentialJumpCodes._add_to_memory` (advanced_jump_codes.py 105-111):
append, then keep only the last `max_memory_size` entries
(`mem[-max:]` is `drop (len - max)`). -/
def addToMemory (mem : List SeqRecord) (record : SeqRecord) : List SeqRecord :=
  if maxMemorySize < (mem ++ [record]).length then
    (mem ++ [record]).drop ((mem ++ [record]).length - maxMemorySize)
  else mem ++ [record]

/-! ### Macros — `JumpCodeMacros` (advanced_jump_codes.py 132-316) -/

/-- One macro definition (advanced_jump_codes.py 204-210); the wall-clock
`created` field is omitted. -/
structure MacroDef where
  sequence : List Str
  description : Str
  parameters : List Str
  usageCount : Nat
deriving DecidableEq

abbrev Macros := List (Str × MacroDef)

/-- `JumpCodeMacros.define_macro` (advanced_jump_codes.py 198-212):
validate the name against the identifier grammar and store the definition
with a fresh `usage_count` of 0 (overwriting any existing entry). -/
def defineMacro (ms : Macros) (name : Str) (sequence : List Str)
    (description : Str) (parameters : List Str) : Except Str Macros :=
  if nameOk name then .ok (setA ms name ⟨sequence, description, parameters, 0⟩)
  else .error (str "Invalid macro name format: " ++ name)

/-- Python `repr` of a list of strings, as interpolated into the
missing-parameter message. -/
def pyListRepr (ks : List Str) : Str :=
  ('[' :: List.intercalate (str ", ")
    (ks.map (fun k => Char.ofNat 39 :: (k ++ [Char.ofNat 39])))) ++ [']']

/-- The message of advanced_jump_codes.py line 233:
`Missing required parameters for macro '<name>': <repr of missing>`. -/
def missingParamsMsg (name : Str) (missing : List Str) : Str :=
  (str "Missing required parameters for macro " ++ [Char.ofNat 39]) ++
  (name ++ ([Char.ofNat 39] ++ (str ": " ++ pyListRepr missing)))

/-- A match of the pattern `\$\{(\w+)\}` at the head of the input: the
captured name, when the head is `$` `{`, a nonempty word-run and `}`. -/
def placeMatch : Str → Option Str
  | '$' :: '{' :: rest2 =>
    match rest2.drop (rest2.takeWhile wordChar).length with
    | '}' :: _ =>
      if (rest2.takeWhile wordChar).isEmpty then none
      else some (rest2.takeWhile wordChar)
    | _ => none
  | _ => none

/-- `JumpCodeMacros._substitute_params` (advanced_jump_codes.py 247-260):
`re.sub` over the pattern `\$\{(\w+)\}` with a replacer that substitutes
the parameter's value when present and keeps the matched text verbatim
otherwise.  The scanner tries a match at each position, emits the
replacement and continues right after the matched `${name}` (which spans
`name.length + 2` characters of `rest`), or advances one character. -/
def substParams (pvals : List (Str × Str)) : Str → Str
  | [] => []
  | c :: rest =>
    match placeMatch (c :: rest) with
    | some name =>
      (match lookupA pvals name with
       | some v => v
       | none => '$' :: '{' :: (name ++ ['}'])) ++
      substParams pvals (rest.drop (name.length + 2))
    | none => c :: substParams pvals rest
termination_by l => l.length
decreasing_by
  · simp [List.length_drop]
    omega
  · simp

/-- `JumpCodeMacros.expand_macro` (advanced_jump_codes.py 222-245): unknown
name fails; then every declared parameter absent from `params` is collected
and a nonempty collection fails before any substitution; otherwise each
sequence entry is substituted and the macro's usage count is bumped.  The
updated macro store is returned alongside the expansion. -/
def expandMacro (ms : Macros) (name : Str) (params : List (Str × Str)) :
    Except Str (List Str × Macros) :=
  match lookupA ms name with
  | none => .error (str "Unknown macro: " ++ name)
  | some macroDef =>
    let missing := macroDef.parameters.filter (fun p => (lookupA params p).isNone)
    if missing.isEmpty then
      .ok (macroDef.sequence.map (substParams params),
        setA ms name { macroDef with usageCount := macroDef.usageCount + 1 })
    else
      .error (missingParamsMsg name missing)

/-- The per-macro entry of the persistence document
(advanced_jump_codes.py 285-292): sequence, description and parameters
only — `usage_count` (and `created`) are not saved. -/
structure SavedMacro where
  sequence : List Str
  description : Str
  parameters : List Str
deriving DecidableEq

/-- `JumpCodeMacros.save_macros` (advanced_jump_codes.py 283-297), with the
JSON file abstracted as the keyed document it serialises. -/
def saveMacros (ms : Macros) : List (Str × SavedMacro) :=
  ms.map (fun p => (p.1, ⟨p.2.sequence, p.2.description, p.2.parameters⟩))

/-- `JumpCodeMacros.load_macros` (advanced_jump_codes.py 299-316): each
document entry is re-defined through `define_macro`; any failure is
re-raised. -/
def loadMacros (ms : Macros) (doc : List (Str × SavedMacro)) : Except Str Macros :=
  doc.foldlM (fun acc p => defineMacro acc p.1 p.2.sequence p.2.description p.2.parameters) ms

/-! ### Enhanced processor — `EnhancedJumpCodeProcessor` (enhanced_jump_codes.py)

The enhanced registry stores handlers keyed by regex patterns; the
registrations in this repository use literal patterns, for which `re.match`
is a prefix test (`leadsWith`).  Enhanced handlers take the string-valued
parameter dict and the processor context. -/

abbrev EnhHandler := List (Str × Str) → Ctx → Except Str Val

structure EnhRegistry where
  codes : List (Str × EnhHandler)
  aliases : List (Str × Str)
  macros : List (Str × List Str)

/-- `JumpCodeResult` (enhanced_jump_codes.py 16-27); wall-clock fields
(`execution_time`, `timestamp`) omitted. -/
structure JumpCodeResult where
  success : Bool
  data : Option Val
  error : Option Str

/-- One entry of `execution_history` (enhanced_jump_codes.py 128-133 and
139-145); wall-clock fields omitted. -/
structure HistEntry where
  code : Str
  success : Bool
  error : Option Str
deriving DecidableEq

structure EnhProcessor where
  registry : EnhRegistry
  context : Ctx
  history : List HistEntry

structure EnhParsed where
  name : Str
  params : List (Str × Str)
  raw : Str

/-- The parameter parsing of `EnhancedJumpCodeProcessor.parse_jump_code`
(enhanced_jump_codes.py 87-95): `key=value` pairs with stripped key and
value, a token without `=` is stored under the key `value`; no coercion. -/
def enhParseParams (ps : Str) : List (Str × Str) :=
  if ps.isEmpty then []
  else
    (splitOn ',' ps).foldl (fun m tok =>
      if ('=') ∈ tok then
        setA m (pstrip (tok.takeWhile (fun c => c ≠ '=')))
          (pstrip ((tok.dropWhile (fun c => c ≠ '=')).tail))
      else setA m (str "value") (pstrip tok)) []

/-- `EnhancedJumpCodeProcessor.parse_jump_code` (enhanced_jump_codes.py
73-101): the input must start with `@`; then `re.match(r"@(\w+)(?::(.+))?",
code)` — unanchored at the end, so text after the name that does not start
a parameter segment is ignored, and the captured parameter text is the
greedy nonempty run of non-newline characters after `:` (when that run is
empty, the optional group matches nothing and there are no parameters). -/
def enhParse (code : Str) : Except Str EnhParsed :=
  match code with
  | '@' :: rest =>
    let name := rest.takeWhile wordChar
    if name.isEmpty then .error (str "Invalid jump code format: " ++ code)
    else
      let paramsStr := match rest.drop name.length with
        | ':' :: ps => ps.takeWhile (fun c => c ≠ '\n')
        | _ => []
      .ok ⟨name, enhParseParams paramsStr, code⟩
  | _ => .error (str "Jump code must start with @: " ++ code)

/-- `EnhancedJumpCodeRegistry.get_handler` (enhanced_jump_codes.py 49-59):
alias resolution, then the first registered pattern that matches the code
(`re.match` on a literal pattern = prefix test). -/
def getHandler (r : EnhRegistry) (code : Str) : Option EnhHandler :=
  let code2 := match lookupA r.aliases code with
    | some c => c
    | none => code
  (r.codes.find? (fun p => leadsWith p.1 code2)).map (fun p => p.2)

/-- Encoding of a `JumpCodeResult` as a `Val` for macro result payloads. -/
def resultToVal (r : JumpCodeResult) : Val :=
  Val.vdict
    ([(str "success", Val.vbool r.success)] ++
     (match r.data with | some v => [(str "data", v)] | none => []) ++
     (match r.error with | some e => [(str "error", Val.vstr e)] | none => []))

/-- The loop of `EnhancedJumpCodeProcessor.execute_macro`
(enhanced_jump_codes.py 157-164), parameterised by the execution of a
single command: run each command, stop at the first failure.  The
processor (and so the history) threads through. -/
def enhMacroRun (exec : EnhProcessor → Str → JumpCodeResult × EnhProcessor) :
    EnhProcessor → List Str → List JumpCodeResult → JumpCodeResult × EnhProcessor
  | proc, [], acc => (⟨true, some (Val.vlist (acc.map resultToVal)), none⟩, proc)
  | proc, cmd :: rest, acc =>
    let r := exec proc cmd
    if r.1.success then enhMacroRun exec r.2 rest (acc ++ [r.1])
    else
      (⟨false, some (Val.vlist ((acc ++ [r.1]).map resultToVal)),
        some (str "Macro failed at: " ++ cmd)⟩, r.2)

/-- `EnhancedJumpCodeProcessor.execute_async` (enhanced_jump_codes.py
103-146).  Every exception inside the `try` block — a parse error or a
handler raise — is caught at 137-146: a failure entry is appended to the
history and a failed `JumpCodeResult` carrying `str(e)` is returned; the
function never faults.  An unknown code that is not a macro returns a
failure without a history entry (line 115).  `fuel` bounds the macro
recursion depth, on which the Python source would recurse unboundedly. -/
def enhExecuteAsync : Nat → EnhProcessor → Str → JumpCodeResult × EnhProcessor
  | 0, proc, _ => (⟨false, none, some (str "recursion limit reached")⟩, proc)
  | fuel + 1, proc, code =>
    match enhParse code with
    | .error m =>
      (⟨false, none, some m⟩, { proc with history := proc.history ++ [⟨code, false, some m⟩] })
    | .ok parsed =>
      match getHandler proc.registry ('@' :: parsed.name) with
      | some h =>
        match h parsed.params proc.context with
        | .ok v =>
          (⟨true, some v, none⟩,
           { proc with history := proc.history ++ [⟨code, true, none⟩] })
        | .error m =>
          (⟨false, none, some m⟩,
           { proc with history := proc.history ++ [⟨code, false, some m⟩] })
      | none =>
        match lookupA proc.registry.macros parsed.name with
        | some cmds => enhMacroRun (enhExecuteAsync fuel) proc cmds []
        | none => (⟨false, none, some (str "Unknown jump code: " ++ code)⟩, proc)

/-! ### Parallel handler — `_parallel_handler`
(agent_squad_jump_integration.py 604-690)

The scheduler and the clock are abstracted as inputs: `completions` is the
sequence of `(task, outcome)` pairs that `as_completed` yields before the
deadline, in completion order, where the outcome is the task's handler
result or the exception its `future.result()` re-raises; `pending` counts
the submitted tasks that have not completed when the deadline expires.
After yielding every completion, `as_completed` raises
`concurrent.futures.TimeoutError` when tasks are still pending, and ends
normally otherwise. -/

/-- Python truthiness of `result.get("error")` values as produced by this
codebase (booleans or absent); other value shapes use emptiness. -/
def valTruthy : Val → Bool
  | .vbool b => b
  | .vint n => decide (n ≠ 0)
  | .vfloat l => !l.isEmpty
  | .vstr s => !s.isEmpty
  | .vdict d => !d.isEmpty
  | .vlist l => !l.isEmpty

/-- `result.get("error")` check of agent_squad_jump_integration.py 663. -/
def dictHasError (v : Val) : Bool :=
  match v with
  | .vdict d =>
    match lookupA d (str "error") with
    | some w => valTruthy w
    | none => false
  | _ => false

inductive ParallelLoopEnd : Type where
  | finished (results : List (Str × Val)) (failed : Bool)
  | timedOut

/-- The collection loop of `_parallel_handler`
(agent_squad_jump_integration.py 656-673): record each completed outcome
under its task string (an exception becomes an error dict), break with
`failed=true` under `fail_fast`, and let the deadline raise `TimeoutError`
out of the loop when tasks are left pending. -/
def parallelCollect (failFast : Bool) :
    List (Str × Except Str Val) → Nat → List (Str × Val) → ParallelLoopEnd
  | [], pending, acc => if pending = 0 then .finished acc false else .timedOut
  | (task, out) :: rest, pending, acc =>
    match out with
    | .ok r =>
      let acc1 := setA acc task r
      if failFast && dictHasError r then .finished acc1 true
      else parallelCollect failFast rest pending acc1
    | .error e =>
      let acc1 := setA acc task
        (Val.vdict [(str "error", Val.vbool true), (str "message", Val.vstr e)])
      if failFast then .finished acc1 true
      else parallelCollect failFast rest pending acc1

/-- The task-list parsing of agent_squad_jump_integration.py 632:
split on `;`, strip, drop empties. -/
def parseTaskList (tasks : Str) : List Str :=
  ((splitOn ';' tasks).map pstrip).filter (fun t => !t.isEmpty)

/-- The overall value returned by `_parallel_handler`: either the
`parallel_execution` dict or one of its blanket error dicts. -/
inductive ParallelOutcome : Type where
  | batch (results : List (Str × Val)) (completedCount : Nat) (total : Nat) (failed : Bool)
  | errorResult (message : Str)

def timeoutMsg (timeout : Nat) : Str :=
  str "Parallel execution timed out after " ++ natToStr timeout ++ str " seconds"

/-- `_parallel_handler` (agent_squad_jump_integration.py 604-690): parse
the task list; an empty list is an error; otherwise run the collection
loop.  A `TimeoutError` escaping the loop is caught at 679-683 and turned
into a single blanket error dict — the collected per-task results are
discarded. -/
def parallelHandler (tasks : Str) (timeout : Nat) (failFast : Bool)
    (completions : List (Str × Except Str Val)) (pending : Nat) : ParallelOutcome :=
  let taskList := parseTaskList tasks
  if taskList.isEmpty then .errorResult (str "No tasks provided for parallel execution")
  else
    match parallelCollect failFast completions pending [] with
    | .timedOut => .errorResult (timeoutMsg timeout)
    | .finished results failed => .batch results results.length taskList.length failed

/-! ### Concrete fixtures used by counterexamples and witnesses -/

/-- A jump code with the given name and handler and no defaults, aliases or
context requirements. -/
def jcSimple (name : Str) (h : Ctx → List (Str × Val) → Except Str Val) : JumpCode :=
  ⟨name, [], h, [], [], []⟩

/-- A registry with two working handlers, one handler that raises a generic
exception, and one handler that raises an exception whose message happens
to contain a critical substring. -/
def regDemo : Registry :=
  ⟨[(str "a", jcSimple (str "a") (fun _ _ => .ok (Val.vstr (str "done-a")))),
    (str "b", jcSimple (str "b") (fun _ _ => .error (str "handler blew up"))),
    (str "boom", jcSimple (str "boom") (fun _ _ => .error (str "Unknown jump code: ghost"))),
    (str "c", jcSimple (str "c") (fun _ _ => .ok (Val.vstr (str "done-c"))))], []⟩

/-- An enhanced processor with a handler that raises and a handler that
succeeds. -/
def procDemo : EnhProcessor :=
  ⟨⟨[(str "@x", fun _ _ => .error (str "boom")),
     (str "@t", fun _ _ => .ok (Val.vstr (str "ok")))], [], []⟩, [], []⟩

/-- Run a list of commands through `execute_async`, keeping the processor
state (and so the execution history). -/
def runEnh (proc : EnhProcessor) (cmds : List Str) : EnhProcessor :=
  cmds.foldl (fun p c => (enhExecuteAsync 1 p c).2) proc

/-- The registry state after registering `alpha` with alias `x` and then
`beta` with the same alias `x`: per jump_codes.py 76-80 the later
registration re-binds the alias, so the alias map sends `x` to `beta`
while `alpha`'s descriptor still lists `x`. -/
def regRebound : Registry :=
  ⟨[(str "alpha", ⟨str "alpha", [], fun _ _ => .ok (Val.vbool true), [], [str "x"], []⟩),
    (str "beta", ⟨str "beta", [], fun _ _ => .ok (Val.vbool true), [], [str "x"], []⟩)],
   [(str "x", str "beta")]⟩

/-- An arbitrary sequence record, used to populate histories. -/
def recDemo : SeqRecord := ⟨[], [], false, 0, 0⟩

/-- A macro store with one used macro (nonzero usage count). -/
def macrosDemo : Macros := [(str "m1", ⟨[str "@a"], str "d", [str "p"], 7⟩)]

/-! ## Helper lemmas on the dict operations -/

lemma lookupA_setA_self {α : Type} (m : List (Str × α)) (k : Str) (v : α) :
    lookupA (setA m k v) k = some v := by
  induction m with
  | nil => simp [setA, lookupA]
  | cons p t ih =>
    by_cases h : p.1 = k
    · simp [setA, h, lookupA]
    · simp [setA, h, lookupA, ih]

lemma lookupA_setA_ne {α : Type} (m : List (Str × α)) (k2 k : Str) (v : α) (h : k2 ≠ k) :
    lookupA (setA m k2 v) k = lookupA m k := by
  induction m with
  | nil => simp [setA, lookupA, h]
  | cons p t ih =>
    by_cases hp : p.1 = k2
    · simp [setA, hp, lookupA, h, hp ▸ h]
    · simp [setA, hp, lookupA, ih]

lemma delA_cons_pos {α : Type} (q : Str × α) (t : List (Str × α)) (k : Str) (hq : q.1 = k) :
    delA (q :: t) k = t := by
  simp only [delA, if_pos hq]

lemma delA_cons_neg {α : Type} (q : Str × α) (t : List (Str × α)) (k : Str) (hq : q.1 ≠ k) :
    delA (q :: t) k = q :: delA t k := by
  simp only [delA, if_neg hq]

lemma mem_of_mem_delA {α : Type} {m : List (Str × α)} {k : Str} {p : Str × α}
    (h : p ∈ delA m k) : p ∈ m := by
  induction m with
  | nil => exact absurd h (by intro hc; cases hc)
  | cons q t ih =>
    by_cases hq : q.1 = k
    · rw [delA_cons_pos q t k hq] at h
      exact List.mem_cons_of_mem q h
    · rw [delA_cons_neg q t k hq] at h
      rcases List.mem_cons.mp h with h1 | h1
      · exact h1 ▸ List.mem_cons_self q t
      · exact List.mem_cons_of_mem q (ih h1)

lemma lookupA_eq_none_iff {α : Type} (m : List (Str × α)) (k : Str) :
    lookupA m k = none ↔ ∀ p ∈ m, p.1 ≠ k := by
  induction m with
  | nil => simp [lookupA]
  | cons p t ih =>
    constructor
    · intro h q hq
      by_cases hp : p.1 = k
      · rw [show lookupA (p :: t) k = some p.2 from by simp only [lookupA, if_pos hp]] at h
        cases h
      · rw [show lookupA (p :: t) k = lookupA t k from by simp only [lookupA, if_neg hp]] at h
        rcases List.mem_cons.mp hq with h1 | h1
        · rw [h1]; exact hp
        · exact ih.mp h q h1
    · intro h
      have hp : p.1 ≠ k := h p (List.mem_cons_self p t)
      rw [show lookupA (p :: t) k = lookupA t k from by simp only [lookupA, if_neg hp]]
      exact ih.mpr (fun q hq => h q (List.mem_cons_of_mem p hq))

lemma lookupA_delA_self {α : Type} (m : List (Str × α)) (k : Str)
    (hnd : (m.map Prod.fst).Nodup) : lookupA (delA m k) k = none := by
  induction m with
  | nil => simp [delA, lookupA]
  | cons p t ih =>
    rw [List.map_cons, List.nodup_cons] at hnd
    by_cases hp : p.1 = k
    · rw [delA_cons_pos p t k hp, lookupA_eq_none_iff]
      intro q hq hqk
      exact hnd.1 (hp ▸ hqk ▸ List.mem_map_of_mem Prod.fst hq)
    · rw [delA_cons_neg p t k hp,
        show lookupA (p :: delA t k) k = lookupA (delA t k) k from by
          simp only [lookupA, if_neg hp]]
      exact ih hnd.2

lemma lookupA_delA_none {α : Type} (m : List (Str × α)) (k a : Str)
    (h : lookupA m a = none) : lookupA (delA m k) a = none := by
  rw [lookupA_eq_none_iff] at h ⊢
  exact fun p hp => h p (mem_of_mem_delA hp)

lemma delA_keys_sublist {α : Type} (m : List (Str × α)) (k : Str) :
    List.Sublist ((delA m k).map Prod.fst) (m.map Prod.fst) := by
  induction m with
  | nil => simp [delA]
  | cons p t ih =>
    by_cases hp : p.1 = k
    · rw [delA_cons_pos p t k hp, List.map_cons]
      exact List.sublist_cons_self p.1 (t.map Prod.fst)
    · rw [delA_cons_neg p t k hp, List.map_cons, List.map_cons]
      exact ih.cons₂ p.1

lemma foldl_delA_none_preserved {α : Type} (l : List Str) (m : List (Str × α)) (a : Str)
    (h : lookupA m a = none) :
    lookupA (l.foldl (fun mm x => delA mm x) m) a = none := by
  induction l generalizing m with
  | nil => exact h
  | cons x t ih => exact ih (delA m x) (lookupA_delA_none m x a h)

lemma foldl_delA_mem_none {α : Type} (l : List Str) (m : List (Str × α)) (a : Str)
    (ha : a ∈ l) (hnd : (m.map Prod.fst).Nodup) :
    lookupA (l.foldl (fun mm x => delA mm x) m) a = none := by
  induction l generalizing m with
  | nil => cases ha
  | cons x t ih =>
    rcases List.mem_cons.mp ha with h | h
    · exact foldl_delA_none_preserved t (delA m x) a (h ▸ lookupA_delA_self m a hnd)
    · exact ih (delA m x) h (hnd.sublist (delA_keys_sublist m x))

/-! ## C7 — protected context keys survive result merging -/

lemma merge_protected (entries : List (Str × Val)) (ctx : Ctx) (k : Str)
    (hk : k ∈ protectedKeys) :
    lookupA (mergeStepResult ctx entries) k = lookupA ctx k := by
  induction entries generalizing ctx with
  | nil => rfl
  | cons kv t ih =>
    simp only [mergeStepResult, List.foldl_cons]
    by_cases hm : kv.1 ∈ protectedKeys
    · rw [if_pos hm]
      exact ih ctx
    · rw [if_neg hm]
      have h3 := ih (setA ctx kv.1 kv.2)
      simp only [mergeStepResult] at h3
      rw [h3, lookupA_setA_ne ctx kv.1 k kv.2 (fun he => hm (he ▸ hk))]

/-- Claim C7: merging a step's key-value result payload into the shared
sequential context (advanced_jump_codes.py 46-52) never changes the
bindings of the protected keys `sequence_id`, `sequence_position` and
`previous_results`, whatever keys the payload contains. -/
theorem claim_c7_protected_keys : ∀ (ctx : Ctx) (entries : List (Str × Val)),
    lookupA (mergeStepResult ctx entries) (str "sequence_id") = lookupA ctx (str "sequence_id") ∧
    lookupA (mergeStepResult ctx entries) (str "sequence_position") =
      lookupA ctx (str "sequence_position") ∧
    lookupA (mergeStepResult ctx entries) (str "previous_results") =
      lookupA ctx (str "previous_results") :=
  fun ctx entries =>
    ⟨merge_protected entries ctx _ (by decide),
     merge_protected entries ctx _ (by decide),
     merge_protected entries ctx _ (by decide)⟩

/-! ## C10 — unregister removes the descriptor's aliases unconditionally -/

/-- Claim C10: `JumpCodeRegistry.unregister` (jump_codes.py 82-94) deletes
from the alias namespace every alias listed in the unregistered command's
descriptor, regardless of which canonical command the alias currently
resolves to — in particular an alias that a later registration re-bound to
a different command is removed as well. -/
theorem claim_c10_unregister_aliases : ∀ (r : Registry) (c : Str) (jc : JumpCode) (a : Str),
    (r.aliases.map Prod.fst).Nodup →
    lookupA r.codes c = some jc →
    a ∈ jc.aliases →
    lookupA (unregister r c).1.aliases a = none := by
  intro r c jc a hnd hc ha
  unfold unregister
  rw [hc]
  exact foldl_delA_mem_none jc.aliases r.aliases a ha hnd

/-- Witness for C10, on the re-binding scenario: in `regRebound` the alias
`x` currently resolves to `beta`, yet unregistering `alpha` (whose
descriptor lists `x`) removes the alias. -/
theorem claim_c10_witness :
    lookupA regRebound.aliases (str "x") = some (str "beta") ∧
    lookupA (unregister regRebound (str "alpha")).1.aliases (str "x") = none := by
  refine ⟨rfl, ?_⟩
  exact claim_c10_unregister_aliases regRebound (str "alpha")
    ⟨str "alpha", [], fun _ _ => .ok (Val.vbool true), [], [str "x"], []⟩
    (str "x") (by decide) rfl (by decide)

/-! ## C8 — history capacity and eviction -/

lemma addToMemory_le (mem : List SeqRecord) (x : SeqRecord) (h : mem.length ≤ 100) :
    (addToMemory mem x).length ≤ 100 := by
  rw [addToMemory, maxMemorySize]
  split
  · simp
    omega
  · rename_i hc
    simp at hc ⊢
    omega

lemma foldl_addToMemory (xs : List SeqRecord) : ∀ (mem : List SeqRecord),
    mem.length ≤ 100 →
    xs.foldl addToMemory mem = (mem ++ xs).drop (mem.length + xs.length - 100) := by
  induction xs with
  | nil =>
    intro mem h
    simp [Nat.sub_eq_zero_of_le h]
  | cons x t ih =>
    intro mem h
    rw [List.foldl_cons, ih (addToMemory mem x) (addToMemory_le mem x h)]
    by_cases hfull : mem.length = 100
    · have hadd : addToMemory mem x = (mem ++ [x]).drop 1 := by
        rw [addToMemory, maxMemorySize, if_pos (by simp [hfull])]
        congr 1
        simp [hfull]
      rw [hadd]
      have hlen : ((mem ++ [x]).drop 1).length = 100 := by simp [hfull]
      rw [hlen]
      have h1 : (1 : Nat) ≤ (mem ++ [x]).length := by simp
      rw [← List.drop_append_of_le_length h1, List.drop_drop]
      have hassoc : (mem ++ [x]) ++ t = mem ++ x :: t := by simp
      rw [hassoc]
      congr 1
      simp [hfull]
      omega
    · have hlt : mem.length < 100 := lt_of_le_of_ne h hfull
      have hadd : addToMemory mem x = mem ++ [x] := by
        rw [addToMemory, maxMemorySize, if_neg (by simp; omega)]
      rw [hadd]
      have hassoc : (mem ++ [x]) ++ t = mem ++ x :: t := by simp
      rw [hassoc]
      congr 1
      simp
      omega

set_option maxRecDepth 8000 in
/-- Counterexample for C8: the claim's sources include the enhanced
processor's `execution_history` (enhanced_jump_codes.py 128-133, 139-145),
but that history is appended to without any capacity trim: after 105
executions it holds 105 entries, exceeding every fixed capacity of 100. -/
theorem claim_c8_counterexample :
    (runEnh procDemo (List.replicate 105 (str "@t"))).history.length = 105 := by
  rfl

/-- Claim C8 (amended): `SequentialJumpCodes.sequence_memory` under
`_add_to_memory` (advanced_jump_codes.py 105-111) never exceeds its fixed
capacity of 100 records, and inserting `capacity + 5` records from empty
leaves exactly the 100 most recent ones in insertion order (the oldest 5
evicted); the enhanced processor's `execution_history`, by contrast, is
unbounded (see the counterexample). -/
theorem claim_c8_amended :
    (∀ xs : List SeqRecord, (xs.foldl addToMemory []).length ≤ 100) ∧
    (∀ xs : List SeqRecord, xs.length = 105 → xs.foldl addToMemory [] = xs.drop 5) := by
  constructor
  · intro xs
    rw [foldl_addToMemory xs [] (by simp)]
    simp
    omega
  · intro xs hlen
    rw [foldl_addToMemory xs [] (by simp)]
    simp [hlen]

/-- Witness for C8 (amended), at 105 concrete records. -/
theorem claim_c8_witness :
    (List.replicate 105 recDemo).length = 105 ∧
    (List.replicate 105 recDemo).foldl addToMemory [] = (List.replicate 105 recDemo).drop 5 :=
  ⟨by simp, claim_c8_amended.2 (List.replicate 105 recDemo) (by simp)⟩

/-! ## C9 — macro persistence round trip -/

lemma loadMacros_ok : ∀ (doc : List (Str × SavedMacro)) (init : Macros),
    (∀ p ∈ doc, nameOk p.1 = true) →
    loadMacros init doc = .ok (doc.foldl
      (fun acc q => setA acc q.1 ⟨q.2.sequence, q.2.description, q.2.parameters, 0⟩) init) := by
  intro doc
  induction doc with
  | nil => intro init _; rfl
  | cons p t ih =>
    intro init h
    have hp : nameOk p.1 = true := h p (List.mem_cons_self p t)
    rw [List.foldl_cons]
    have hstep : loadMacros init (p :: t) =
        loadMacros (setA init p.1 ⟨p.2.sequence, p.2.description, p.2.parameters, 0⟩) t := by
      simp only [loadMacros, List.foldlM_cons, defineMacro, if_pos hp]
      rfl
    rw [hstep]
    exact ih _ (fun q hq => h q (List.mem_cons_of_mem p hq))

lemma lookupA_foldl_setA_skip : ∀ (doc : List (Str × SavedMacro)) (init : Macros) (k : Str),
    (∀ q ∈ doc, q.1 ≠ k) →
    lookupA (doc.foldl
      (fun acc q => setA acc q.1 ⟨q.2.sequence, q.2.description, q.2.parameters, 0⟩) init) k =
      lookupA init k := by
  intro doc
  induction doc with
  | nil => intro init k _; rfl
  | cons p t ih =>
    intro init k h
    rw [List.foldl_cons, ih _ k (fun q hq => h q (List.mem_cons_of_mem p hq))]
    exact lookupA_setA_ne init p.1 k _ (h p (List.mem_cons_self p t))

lemma lookupA_foldl_setA_mem : ∀ (doc : List (Str × SavedMacro)) (init : Macros)
    (p : Str × SavedMacro), p ∈ doc → (doc.map Prod.fst).Nodup →
    lookupA (doc.foldl
      (fun acc q => setA acc q.1 ⟨q.2.sequence, q.2.description, q.2.parameters, 0⟩) init) p.1 =
      some ⟨p.2.sequence, p.2.description, p.2.parameters, 0⟩ := by
  intro doc
  induction doc with
  | nil => intro init p hp; cases hp
  | cons q t ih =>
    intro init p hp hnd
    rw [List.map_cons, List.nodup_cons] at hnd
    rw [List.foldl_cons]
    rcases List.mem_cons.mp hp with h1 | h1
    · subst h1
      rw [lookupA_foldl_setA_skip t _ p.1
        (fun r hr hrk => hnd.1 (hrk ▸ List.mem_map_of_mem Prod.fst hr))]
      exact lookupA_setA_self init p.1 _
    · exact ih _ p h1 hnd.2

/-- Claim C9: saving a macro store (advanced_jump_codes.py 283-297) and
loading the resulting document back (299-316) restores every macro's
sequence, description and declared parameters unchanged, while
`usage_count` is not part of the saved document and restarts at zero on
load.  The hypotheses state the invariants every store built through
`define_macro` has: validated names and unique keys. -/
theorem claim_c9_roundtrip : ∀ (init ms : Macros),
    (∀ p ∈ ms, nameOk p.1 = true) →
    (ms.map Prod.fst).Nodup →
    ∃ ms2, loadMacros init (saveMacros ms) = .ok ms2 ∧
      ∀ p ∈ ms, lookupA ms2 p.1 =
        some ⟨p.2.sequence, p.2.description, p.2.parameters, 0⟩ := by
  intro init ms hval hnd
  refine ⟨_, loadMacros_ok (saveMacros ms) init ?_, ?_⟩
  · intro p hp
    rcases List.mem_map.mp hp with ⟨q, hq, hqe⟩
    have : p.1 = q.1 := by rw [← hqe]
    rw [this]
    exact hval q hq
  · intro p hp
    have hmem : (p.1, (⟨p.2.sequence, p.2.description, p.2.parameters⟩ : SavedMacro)) ∈
        saveMacros ms :=
      List.mem_map_of_mem
        (fun r => (r.1, (⟨r.2.sequence, r.2.description, r.2.parameters⟩ : SavedMacro))) hp
    have hkeys : ((saveMacros ms).map Prod.fst).Nodup := by
      have he : (saveMacros ms).map Prod.fst = ms.map Prod.fst := by
        simp [saveMacros, List.map_map, Function.comp]
      rw [he]
      exact hnd
    exact lookupA_foldl_setA_mem (saveMacros ms) init _ hmem hkeys

/-- Witness for C9, on a store holding one macro with usage count 7: the
reload restores its fields with the usage count reset to 0. -/
theorem claim_c9_witness :
    ∃ ms2, loadMacros [] (saveMacros macrosDemo) = .ok ms2 ∧
      ∀ p ∈ macrosDemo, lookupA ms2 p.1 =
        some ⟨p.2.sequence, p.2.description, p.2.parameters, 0⟩ :=
  claim_c9_roundtrip [] macrosDemo (by decide) (by decide)

/-! ## C1 — handler exceptions: re-raised by the registry, caught by the
enhanced processor -/

/-- Counterexample for C1: `JumpCodeRegistry.execute` (jump_codes.py
127-129) logs and re-raises, so a handler exception leaves `execute` as a
raised fault (`Except.error` of kind `handlerError`), not as a returned
failure result — contradicting the claim that the exception never
propagates out of `execute`. -/
theorem claim_c1_counterexample :
    registryExecute regDemo (str "@b") [] =
      .error (.handlerError (str "handler blew up")) := by
  rfl

/-- Claim C1 (amended): it is `EnhancedJumpCodeProcessor.execute_async`
(enhanced_jump_codes.py 137-146) that catches a handler exception and
returns a failed result preserving the original message (and records a
failure history entry); `JumpCodeRegistry.execute` re-raises instead (see
the counterexample). -/
theorem claim_c1_amended : ∀ (fuel : Nat) (proc : EnhProcessor) (code : Str)
    (parsed : EnhParsed) (h : EnhHandler) (msg : Str),
    enhParse code = .ok parsed →
    getHandler proc.registry ('@' :: parsed.name) = some h →
    h parsed.params proc.context = .error msg →
    enhExecuteAsync (fuel + 1) proc code =
      (⟨false, none, some msg⟩,
       { proc with history := proc.history ++ [⟨code, false, some msg⟩] }) := by
  intro fuel proc code parsed h msg hp hh he
  simp only [enhExecuteAsync, hp, hh, he]

/-- Witness for C1 (amended): the concrete processor whose `@x` handler
raises `boom`. -/
theorem claim_c1_witness :
    enhParse (str "@x") = .ok ⟨str "x", [], str "@x"⟩ ∧
    enhExecuteAsync 1 procDemo (str "@x") =
      (⟨false, none, some (str "boom")⟩,
       { procDemo with history := [⟨str "@x", false, some (str "boom")⟩] }) :=
  ⟨rfl, claim_c1_amended 0 procDemo (str "@x") ⟨str "x", [], str "@x"⟩
    (fun _ _ => .error (str "boom")) (str "boom") rfl rfl rfl⟩

/-! ## C2 — sequential abort policy -/

lemma leadsWith_append (n r : Str) : leadsWith n (n ++ r) = true := by
  induction n with
  | nil => rfl
  | cons a t ih => simp [leadsWith, ih]

lemma containsStr_append (n r : Str) : containsStr n (n ++ r) = true := by
  cases n with
  | nil =>
    cases r with
    | nil => rfl
    | cons c t => simp [containsStr, leadsWith]
  | cons a t => simp [containsStr, leadsWith, leadsWith_append]

lemma shouldAbort_eq (msg : Str) (pos total : Nat) :
    shouldAbortSequence msg pos total = criticalErrors.any (fun c => containsStr c msg) := by
  cases hb : criticalErrors.any (fun c => containsStr c msg) with
  | true => simp [shouldAbortSequence, hb]
  | false => simp [shouldAbortSequence, hb]

lemma parse_error_msg : ∀ (s m : Str), parseJumpCode s = .error m →
    m = str "Invalid jump code format: " ++ stripSigil s := by
  intro s m h
  simp only [parseJumpCode] at h
  split at h
  · injection h with h1
    exact h1.symm
  · split at h
    · cases h
    · cases h
    · split at h
      · injection h with h1
        exact h1.symm
      · split at h
        · cases h
        · injection h with h1
          exact h1.symm
    · injection h with h1
      exact h1.symm

/-- Counterexample for C2: a handler exception is a generic handler error —
`registryExecute` reports it with kind `handlerError` — yet when its
message happens to contain the substring `Unknown jump code` the abort
policy (advanced_jump_codes.py 93-96) matches on the message text and
aborts: the 2-step sequence records only 1 step and is not completed,
although the claim says a generic handler error never triggers abort. -/
theorem claim_c2_counterexample :
    registryExecute regDemo (str "@boom")
      [(str "sequence_id", Val.vstr (str "s")), (str "sequence_position", Val.vint 0),
       (str "previous_results", Val.vlist [])] =
      .error (.handlerError (str "Unknown jump code: ghost")) ∧
    (executeSequence regDemo (str "s") [str "@boom", str "@c"]).results.length = 1 ∧
    (executeSequence regDemo (str "s") [str "@boom", str "@c"]).completed = false :=
  ⟨rfl, rfl, rfl⟩

/-- Claim C2 (amended): after a failing step the run stops before the next
step if and only if the failure's message contains one of the critical
substrings (`Missing required context`, `Unknown jump code`, `Invalid jump
code format`).  Failures the registry itself raises for unknown commands,
missing context, or malformed invocations always carry such messages, so
the claim's 3-step scenarios hold: a sequence failing at step 2 with an
unknown command records 2 steps with completed = false, and one failing at
step 2 with a plain handler error (message free of critical substrings)
records 3 steps with completed = true.  A generic handler error aborts
exactly when its message contains a critical substring (see the
counterexample). -/
theorem claim_c2_abort_policy :
    (∀ (e : ExecErr) (pos total : Nat),
      shouldAbortSequence (errMsg e) pos total =
        criticalErrors.any (fun c => containsStr c (errMsg e))) ∧
    (∀ (name : Str) (pos total : Nat),
      shouldAbortSequence (errMsg (ExecErr.unknownCode name)) pos total = true) ∧
    (∀ (ks : List Str) (pos total : Nat),
      shouldAbortSequence (errMsg (ExecErr.missingContext ks)) pos total = true) ∧
    (∀ (s m : Str) (pos total : Nat), parseJumpCode s = .error m →
      shouldAbortSequence (errMsg (ExecErr.parseError m)) pos total = true) ∧
    ((executeSequence regDemo (str "s") [str "@a", str "@nope", str "@c"]).results.length = 2 ∧
     (executeSequence regDemo (str "s") [str "@a", str "@nope", str "@c"]).completed = false) ∧
    ((executeSequence regDemo (str "s") [str "@a", str "@b", str "@c"]).results.length = 3 ∧
     (executeSequence regDemo (str "s") [str "@a", str "@b", str "@c"]).completed = true) := by
  refine ⟨fun e pos total => shouldAbort_eq (errMsg e) pos total, ?_, ?_, ?_, ⟨rfl, rfl⟩, ⟨rfl, rfl⟩⟩
  · intro name pos total
    rw [shouldAbort_eq]
    have he : errMsg (ExecErr.unknownCode name) =
        str "Unknown jump code" ++ (str ": " ++ name) := by
      show str "Unknown jump code: " ++ name = _
      rw [← List.append_assoc]
      rfl
    simp [criticalErrors, he, containsStr_append]
  · intro ks pos total
    rw [shouldAbort_eq]
    have he : errMsg (ExecErr.missingContext ks) =
        str "Missing required context" ++ (str ": " ++ List.intercalate (str ", ") ks) := by
      show str "Missing required context: " ++ List.intercalate (str ", ") ks = _
      rw [← List.append_assoc]
      rfl
    simp [criticalErrors, he, containsStr_append]
  · intro s m pos total h
    rw [shouldAbort_eq]
    have he : errMsg (ExecErr.parseError m) =
        str "Invalid jump code format" ++ (str ": " ++ stripSigil s) := by
      show m = _
      rw [parse_error_msg s m h, ← List.append_assoc]
      rfl
    simp [criticalErrors, he, containsStr_append]

/-- Witness for C2 (amended), discharging the parse-error hypothesis at the
concrete malformed invocation `@:`. -/
theorem claim_c2_witness :
    parseJumpCode (str "@:") = .error (str "Invalid jump code format: :") ∧
    shouldAbortSequence (errMsg (ExecErr.parseError (str "Invalid jump code format: :"))) 1 3 =
      true :=
  ⟨rfl, claim_c2_abort_policy.2.2.2.1 (str "@:") (str "Invalid jump code format: :") 1 3 rfl⟩

/-! ## C5 — parallel batch timeout -/

lemma parallelCollect_timeout : ∀ (completions : List (Str × Except Str Val)) (pending : Nat)
    (acc : List (Str × Val)), pending ≠ 0 →
    parallelCollect false completions pending acc = .timedOut := by
  intro completions
  induction completions with
  | nil =>
    intro pending acc hp
    simp [parallelCollect, hp]
  | cons co rest ih =>
    intro pending acc hp
    rcases co with ⟨task, out⟩
    cases out with
    | ok r =>
      simp only [parallelCollect, Bool.false_and, Bool.false_eq_true, if_false]
      exact ih pending _ hp
    | error e =>
      simp only [parallelCollect, Bool.false_eq_true, if_false]
      exact ih pending _ hp

/-- Counterexample for C5: two tasks, task `a` completes with a real
outcome before the deadline, task `b` is still pending when the deadline
expires.  The handler then returns the single blanket timeout error dict
(agent_squad_jump_integration.py 679-683): task `a`'s completed outcome is
not kept anywhere in the batch result and task `b` is not recorded as a
`TimeoutError` outcome in any slot, contradicting the claim. -/
theorem claim_c5_counterexample :
    parallelHandler (str "a;b") 300 false
      [(str "a", .ok (Val.vdict [(str "type", Val.vstr (str "task_assigned"))]))] 1 =
      .errorResult (timeoutMsg 300) ∧
    timeoutMsg 300 = str "Parallel execution timed out after 300 seconds" :=
  ⟨rfl, rfl⟩

/-- Claim C5 (amended): whenever the deadline expires with at least one
submitted task still pending (and `fail_fast` unset, so the loop cannot
break early), `_parallel_handler` returns one blanket error result carrying
the timeout message; the outcomes of tasks that completed before the
deadline are discarded, and pending tasks are not given per-slot
`TimeoutError` outcomes. -/
theorem claim_c5_amended : ∀ (tasks : Str) (timeout : Nat)
    (completions : List (Str × Except Str Val)) (pending : Nat),
    (parseTaskList tasks).isEmpty = false → pending ≠ 0 →
    parallelHandler tasks timeout false completions pending =
      .errorResult (timeoutMsg timeout) := by
  intro tasks timeout completions pending ht hp
  simp only [parallelHandler, ht, Bool.false_eq_true, if_false]
  rw [parallelCollect_timeout completions pending [] hp]

/-- Witness for C5 (amended): one pending task, no completions. -/
theorem claim_c5_witness :
    (parseTaskList (str "x;y")).isEmpty = false ∧ (1 : Nat) ≠ 0 ∧
    parallelHandler (str "x;y") 60 false [] 1 = .errorResult (timeoutMsg 60) :=
  ⟨rfl, by decide, claim_c5_amended (str "x;y") 60 [] 1 rfl (by decide)⟩

/-! ## C4 — parser acceptance -/

lemma takeWhile_all_eq (p : Char → Bool) : ∀ l : Str, l.all p = true → l.takeWhile p = l := by
  intro l
  induction l with
  | nil => intro _; rfl
  | cons a t ih =>
    intro h
    rw [List.all_cons, Bool.and_eq_true] at h
    simp [List.takeWhile_cons, h.1, ih h.2]

lemma nameOk_isEmpty_false {n : Str} (h : nameOk n = true) : n.isEmpty = false := by
  cases n with
  | nil => cases h
  | cons c t => rfl

lemma exOk_parse_eq_regex (s : Str) : exOk (parseJumpCode s) = regexAccepts (stripSigil s) := by
  simp only [parseJumpCode, regexAccepts]
  by_cases hn : ((stripSigil s).takeWhile wordChar).isEmpty
  · simp [hn, exOk]
  · simp only [hn, Bool.false_eq_true, if_false, ite_false]
    split
    · simp [exOk]
    · simp [exOk]
    · rename_i ps heq
      by_cases hA : (ps.takeWhile (fun c => c ≠ '\n')).isEmpty = true
      · rw [if_pos hA, if_pos hA]
        rfl
      · rw [if_neg hA, if_neg hA]
        by_cases hB : ((ps.drop (ps.takeWhile (fun c => c ≠ '\n')).length).isEmpty = true ∨
            ps.drop (ps.takeWhile (fun c => c ≠ '\n')).length = ['\n'])
        · rw [if_pos hB, if_pos hB]
          rfl
        · rw [if_neg hB, if_neg hB]
          rfl
    · simp [exOk]

lemma exOk_enhParse_eq (s : Str) : exOk (enhParse s) = enhAccepts s := by
  simp only [enhParse, enhAccepts]
  split
  · rename_i rest
    by_cases hn : (rest.takeWhile wordChar).isEmpty
    · simp [hn, exOk]
    · simp [hn, exOk]
  · simp [exOk]

/-- Counterexample for C4: `JumpCodeRegistry._parse_jump_code` strips the
sigil only if present (jump_codes.py 134-135), so sigil-less input that
fits the grammar parses successfully — contradicting the claim that
parsing never succeeds on sigil-less input; and the enhanced parser's
regex is unanchored at the end, so `@a b` parses although it does not
match the command grammar. -/
theorem claim_c4_counterexample :
    parseJumpCode (str "status") = .ok ⟨str "status", []⟩ ∧
    enhParse (str "@a b") = .ok ⟨str "a", [], str "@a b"⟩ :=
  ⟨rfl, rfl⟩

/-- Claim C4 (amended): neither parser enforces `ParseError` exactly on
non-grammar or sigil-less input.  The registry parser accepts exactly the
inputs whose sigil-stripped form matches its regex `^(\w+)(?::(.+))?$`
(`regexAccepts`): every newline-free input conforming to the spec grammar
is accepted, but so are sigil-less input, digit-led names such as `9abc`
(which the spec's identifier rule rejects), and arbitrary nonempty
non-newline parameter text; everything else — in particular any input
failing the grammar for lack of a name or of parameter text after `:` —
fails with `ParseError`.  The enhanced parser accepts exactly the inputs
starting with `@` and a nonempty word-run — so it never succeeds on
sigil-less input — but ignores trailing text beyond the grammar.  The
last conjunct records the Python `re` newline boundary: a single trailing
newline is accepted (`$` matches before it), a newline inside the
parameter text is not (`.` does not match it). -/
theorem claim_c4_parse_failure :
    (∀ s : Str, exOk (parseJumpCode s) = regexAccepts (stripSigil s)) ∧
    (∀ s : Str, exOk (enhParse s) = enhAccepts s) ∧
    (∀ s : Str, s.head? ≠ some '@' → exOk (enhParse s) = false) ∧
    (∀ t : Str, specGrammarOk t = true → t.all (fun c => c ≠ '\n') = true →
      regexAccepts t = true) ∧
    (exOk (parseJumpCode (str "@9abc")) = true ∧ specGrammarOk (str "9abc") = false) ∧
    (exOk (parseJumpCode (str "ab\n")) = true ∧
     exOk (parseJumpCode (str "a:b\nc")) = false) := by
  refine ⟨exOk_parse_eq_regex, exOk_enhParse_eq, ?_, ?_, ⟨rfl, rfl⟩, ⟨rfl, rfl⟩⟩
  · intro s h
    rw [exOk_enhParse_eq]
    match s with
    | [] => rfl
    | c :: rest =>
      have hc : c ≠ '@' := by
        intro he
        exact h (by rw [he]; rfl)
      simp only [enhAccepts]
      split
      · rename_i heq
        injection heq with h1 _
        exact absurd h1 hc
      · rfl
  · intro t hg hnl
    simp only [specGrammarOk, Bool.and_eq_true] at hg
    obtain ⟨hname, hrest⟩ := hg
    have hne : (t.takeWhile wordChar).isEmpty = false := nameOk_isEmpty_false hname
    simp only [regexAccepts, hne, Bool.false_eq_true, if_false, ite_false]
    split at hrest
    · rename_i heq
      rw [heq]
    · rename_i ps heq
      rw [heq]
      have hps_ne : ps ≠ [] := by
        intro h0
        subst h0
        exact absurd hrest (by decide)
      have hps_nl : ps.all (fun c => c ≠ '\n') = true := by
        rw [List.all_eq_true]
        intro a ha
        have h1 : a ∈ t.drop (t.takeWhile wordChar).length := by
          rw [heq]
          exact List.mem_cons_of_mem ':' ha
        have h2 : a ∈ t := List.Sublist.mem h1 (List.drop_sublist _ _)
        exact List.all_eq_true.mp hnl a h2
      have hrun : ps.takeWhile (fun c => c ≠ '\n') = ps := takeWhile_all_eq _ ps hps_nl
      have hps_ie : ps.isEmpty = false := by
        cases ps with
        | nil => exact absurd rfl hps_ne
        | cons x xs => rfl
      show (if (ps.takeWhile (fun c => c ≠ '\n')).isEmpty = true then false
        else if (ps.drop (ps.takeWhile (fun c => c ≠ '\n')).length).isEmpty = true ∨
            ps.drop (ps.takeWhile (fun c => c ≠ '\n')).length = ['\n'] then true
        else false) = true
      rw [hrun, if_neg (by simp [hps_ie]), if_pos (Or.inl (by simp [List.drop_length]))]
    · cases hrest

/-- Witness for C4 (amended): the enhanced parser rejects the sigil-less
`status`, and the grammar-conforming, newline-free `x:role=dev` is
accepted by the registry parser's regex. -/
theorem claim_c4_witness :
    ((str "status").head? ≠ some '@' ∧ exOk (enhParse (str "status")) = false) ∧
    (specGrammarOk (str "x:role=dev") = true ∧
     (str "x:role=dev").all (fun c => c ≠ '\n') = true ∧
     regexAccepts (str "x:role=dev") = true) :=
  ⟨⟨by decide, claim_c4_parse_failure.2.2.1 (str "status") (by decide)⟩,
   ⟨by decide, by decide,
    claim_c4_parse_failure.2.2.2.1 (str "x:role=dev") (by decide) (by decide)⟩⟩

/-! ## C6 — macro expansion and placeholder substitution -/

lemma takeWhile_append_stop (k : Str) (c : Char) (r : Str)
    (hw : ∀ a ∈ k, wordChar a = true) (hc : wordChar c = false) :
    (k ++ c :: r).takeWhile wordChar = k := by
  induction k with
  | nil => simp [List.takeWhile_cons, hc]
  | cons a t ih =>
    have ha := hw a (List.mem_cons_self a t)
    simp [List.takeWhile_cons, ha, ih (fun b hb => hw b (List.mem_cons_of_mem a hb))]

lemma placeMatch_hit (k rest0 : Str) (hk : k.isEmpty = false) (hw : k.all wordChar = true) :
    placeMatch ('$' :: '{' :: (k ++ '}' :: rest0)) = some k := by
  have htw : (k ++ '}' :: rest0).takeWhile wordChar = k :=
    takeWhile_append_stop k '}' rest0 (List.all_eq_true.mp hw) (by decide)
  simp only [placeMatch, htw, List.drop_left]
  simp [hk]

lemma drop_past_placeholder (k rest0 : Str) :
    ('{' :: (k ++ '}' :: rest0)).drop (k.length + 2) = rest0 := by
  rw [show k.length + 2 = (k.length + 1) + 1 from rfl, List.drop_succ_cons,
    show k.length + 1 = k.length + 1 from rfl, List.drop_append 1]
  rfl

lemma substParams_hit (pvals : List (Str × Str)) (k rest0 : Str)
    (hk : k.isEmpty = false) (hw : k.all wordChar = true) :
    substParams pvals ('$' :: '{' :: (k ++ '}' :: rest0)) =
      (match lookupA pvals k with
       | some v => v
       | none => '$' :: '{' :: (k ++ ['}'])) ++ substParams pvals rest0 := by
  rw [substParams, placeMatch_hit k rest0 hk hw]
  dsimp only
  rw [drop_past_placeholder k rest0]

/-- Claim C6: `expand_macro` (advanced_jump_codes.py 222-245) fails with
the missing-parameter error listing exactly the declared parameters absent
from the valuation, before performing any substitution; otherwise it maps
`_substitute_params` over the sequence (bumping the usage count).
`_substitute_params` (247-260) replaces each `${k}` occurrence whose key
is present with that key's value, leaves each occurrence whose key is
absent verbatim, and — being a total function — never raises. -/
theorem claim_c6_expansion :
    (∀ (ms : Macros) (name : Str) (pvals : List (Str × Str)) (md : MacroDef),
      lookupA ms name = some md →
      (((md.parameters.filter (fun p => (lookupA pvals p).isNone)).isEmpty = false →
        expandMacro ms name pvals = .error
          (missingParamsMsg name
            (md.parameters.filter (fun p => (lookupA pvals p).isNone)))) ∧
       ((md.parameters.filter (fun p => (lookupA pvals p).isNone)).isEmpty = true →
        expandMacro ms name pvals = .ok (md.sequence.map (substParams pvals),
          setA ms name { md with usageCount := md.usageCount + 1 })))) ∧
    (∀ (pvals : List (Str × Str)) (k rest0 : Str),
      k.isEmpty = false → k.all wordChar = true → lookupA pvals k = none →
      substParams pvals ('$' :: '{' :: (k ++ '}' :: rest0)) =
        '$' :: '{' :: (k ++ '}' :: substParams pvals rest0)) ∧
    (∀ (pvals : List (Str × Str)) (k v rest0 : Str),
      k.isEmpty = false → k.all wordChar = true → lookupA pvals k = some v →
      substParams pvals ('$' :: '{' :: (k ++ '}' :: rest0)) =
        v ++ substParams pvals rest0) := by
  refine ⟨?_, ?_, ?_⟩
  · intro ms name pvals md hlk
    constructor
    · intro hmiss
      simp only [expandMacro, hlk]
      rw [if_neg (by simp [hmiss])]
    · intro hmiss
      simp only [expandMacro, hlk]
      rw [if_pos (by simp [hmiss])]
  · intro pvals k rest0 hk hw hlk
    rw [substParams_hit pvals k rest0 hk hw, hlk]
    simp
  · intro pvals k v rest0 hk hw hlk
    rw [substParams_hit pvals k rest0 hk hw, hlk]

/-- Witness for C6, on the macro store holding `m1` with declared parameter
`p`: expansion with an empty valuation fails listing `p`, and an
undeclared placeholder `${r}` is left verbatim under an empty valuation. -/
theorem claim_c6_witness :
    lookupA macrosDemo (str "m1") = some ⟨[str "@a"], str "d", [str "p"], 7⟩ ∧
    (([str "p"] : List Str).filter
      (fun p => (lookupA ([] : List (Str × Str)) p).isNone)).isEmpty = false ∧
    expandMacro macrosDemo (str "m1") [] =
      .error (str "Missing required parameters for macro \x27m1\x27: [\x27p\x27]") ∧
    substParams [] ('$' :: '{' :: (str "r" ++ '}' :: [])) =
      '$' :: '{' :: (str "r" ++ '}' :: substParams [] []) := by
  refine ⟨rfl, rfl, ?_, ?_⟩
  · exact (claim_c6_expansion.1 macrosDemo (str "m1") []
      ⟨[str "@a"], str "d", [str "p"], 7⟩ rfl).1 rfl
  · exact claim_c6_expansion.2.1 [] (str "r") [] rfl rfl rfl

/-! ## C3 — parameter value coercion -/

lemma erase_eq_filter_of_count_one (a : Char) : ∀ l : Str,
    l.count a = 1 → l.erase a = l.filter (fun c => c ≠ a) := by
  intro l
  induction l with
  | nil => intro h; simp at h
  | cons b t ih =>
    intro h
    by_cases hb : b = a
    · subst hb
      rw [List.count_cons_self] at h
      have hz : t.count b = 0 := by omega
      have hnot : b ∉ t := List.count_eq_zero.mp hz
      rw [List.erase_cons_head]
      rw [show List.filter (fun c => decide (c ≠ b)) (b :: t) =
          List.filter (fun c => decide (c ≠ b)) t from by simp]
      symm
      exact List.filter_eq_self.mpr (fun x hx => by
        simp only [decide_eq_true_eq]
        exact fun he => hnot (he ▸ hx))
    · rw [List.count_cons_of_ne (fun he => hb he.symm)] at h
      rw [show (b :: t).erase a = b :: t.erase a from by simp [List.erase_cons, hb]]
      rw [List.filter_cons]
      simp [hb, ih h]

lemma float_cond_iff (v : Str) (h3 : pyIsdigit v = false) :
    pyIsdigit (v.erase '.') = true ↔
      (v.count '.' = 1 ∧ (v.filter (fun c => c ≠ '.')).all Char.isDigit = true ∧
        v.filter (fun c => c ≠ '.') ≠ []) := by
  constructor
  · intro h4
    have hne : v.erase '.' ≠ [] ∧ (v.erase '.').all Char.isDigit = true := by
      constructor
      · intro he
        rw [he] at h4
        simp [pyIsdigit] at h4
      · simp only [pyIsdigit, Bool.and_eq_true] at h4
        exact h4.2
    by_cases hdot : ('.') ∈ v
    · have hnotin : ('.') ∉ v.erase '.' := by
        intro hmem
        have hdigit := List.all_eq_true.mp hne.2 _ hmem
        exact absurd hdigit (by decide)
      have hz : (v.erase '.').count '.' = 0 := List.count_eq_zero.mpr hnotin
      rw [List.count_erase_self] at hz
      have hpos : 0 < v.count '.' := List.count_pos_iff.mpr hdot
      have hcount : v.count '.' = 1 := by omega
      have hfe := erase_eq_filter_of_count_one '.' v hcount
      exact ⟨hcount, hfe ▸ hne.2, hfe ▸ hne.1⟩
    · rw [List.erase_of_not_mem hdot] at h4
      rw [h4] at h3
      cases h3
  · rintro ⟨hc, hall, hne⟩
    have hfe := erase_eq_filter_of_count_one '.' v hc
    rw [hfe]
    have hie : (v.filter (fun c => c ≠ '.')).isEmpty = false := by
      rcases hcase : v.filter (fun c => c ≠ '.') with _ | ⟨x, xs⟩
      · exact absurd hcase hne
      · rfl
    simp only [pyIsdigit, Bool.and_eq_true, Bool.not_eq_true']
    exact ⟨hie, hall⟩

lemma mem_pstrip {a : Char} {l : Str} (h : a ∈ pstrip l) : a ∈ l := by
  simp only [pstrip, List.mem_reverse] at h
  have h3 : a ∈ (l.dropWhile pySpace).reverse :=
    List.Sublist.mem h (List.dropWhile_sublist pySpace)
  rw [List.mem_reverse] at h3
  exact List.Sublist.mem h3 (List.dropWhile_sublist pySpace)

/-- Claim C3: the parser's value coercion (jump_codes.py 157-165) agrees
with the spec's first-match order on every value string — case-insensitive
`true`/`false` → boolean, all-digit → integer, digits with exactly one
decimal point → float, else string — and a bare token without `=` becomes
a boolean flag parameter set to `true` (lines 166-168); the spec's §8
coercion example evaluates as stated. -/
theorem claim_c3_coercion :
    (∀ v : Str, coerceValue v = specCoerceValue v) ∧
    (∀ tok : Str, ('=') ∉ tok → parseParamToken tok = (pstrip tok, Val.vbool true)) ∧
    parseJumpCode (str "@x:flag=true,count=3,ratio=1.5,name=foo") =
      .ok ⟨str "x", [(str "flag", Val.vbool true), (str "count", Val.vint 3),
        (str "ratio", Val.vfloat (str "1.5")), (str "name", Val.vstr (str "foo"))]⟩ := by
  refine ⟨?_, ?_, rfl⟩
  · intro v
    by_cases h1 : lowerStr v = str "true"
    · simp [coerceValue, specCoerceValue, h1]
    · by_cases h2 : lowerStr v = str "false"
      · simp only [coerceValue, specCoerceValue]
        rw [if_pos (Or.inr h2), if_neg h1, if_pos h2, h2]
        rfl
      · have hor : ¬(lowerStr v = str "true" ∨ lowerStr v = str "false") := by tauto
        simp only [coerceValue, specCoerceValue]
        rw [if_neg hor, if_neg h1, if_neg h2]
        by_cases h3 : pyIsdigit v = true
        · rw [if_pos h3, if_pos h3]
        · have h3f : pyIsdigit v = false := by simpa using h3
          rw [if_neg h3, if_neg h3]
          by_cases h4 : pyIsdigit (v.erase '.') = true
          · rw [if_pos h4, if_pos ((float_cond_iff v h3f).mp h4)]
          · rw [if_neg h4, if_neg (fun hc => h4 ((float_cond_iff v h3f).mpr hc))]
  · intro tok h
    have h2 : ('=') ∉ pstrip tok := fun hm => h (mem_pstrip hm)
    simp only [parseParamToken]
    rw [if_neg h2]

/-- Witness for C3, at the bare token `verbose`. -/
theorem claim_c3_witness :
    ('=') ∉ str "verbose" ∧
    parseParamToken (str "verbose") = (pstrip (str "verbose"), Val.vbool true) :=
  ⟨by decide, claim_c3_coercion.2.1 (str "verbose") (by decide)⟩
